import Mathlib

/-!
Shallow embedding of the `hashsync` store (src/id.rs, src/index.rs,
src/hashsync.rs): a primary table from row identifiers to row values,
together with secondary inverted indexes maintained by user-supplied
key-extraction functions.  Hash maps and hash sets of the source are
modelled as association lists and duplicate-free lists; the stateful Rust
methods become pure state-passing functions.
-/

set_option autoImplicit false

/-- Row identifiers, `RowId(usize)` from src/id.rs. -/
structure RowId where
  val : Nat
deriving DecidableEq, Repr

/-- `RowId::new` from src/id.rs. -/
def RowId.new (n : Nat) : RowId := ⟨n⟩

/-- `RowId::next` from src/id.rs: the successor identifier. -/
def RowId.next (r : RowId) : RowId := ⟨r.val + 1⟩

/-- `std::cmp::max` on `RowId` (derived `Ord` compares the wrapped integer). -/
def RowId.maxId (a b : RowId) : RowId := ⟨Nat.max a.val b.val⟩

/-- `Indexed<T>` from src/id.rs: a row value paired with its identifier. -/
structure Indexed (V : Type) where
  id : RowId
  value : V
deriving DecidableEq, Repr

/-- `Indexed::new` from src/id.rs. -/
def Indexed.new {V : Type} (id : RowId) (v : V) : Indexed V := ⟨id, v⟩

/-- `Indexed::into_value` from src/id.rs. -/
def Indexed.intoValue {V : Type} (x : Indexed V) : V := x.value

/-- The inverted mapping `FxHashMap<KeyT, FxHashSet<RowId>>` of an index,
modelled as an association list whose range lists play the role of the
hash sets. -/
abbrev KeySets (K : Type) := List (K × List RowId)

/-- `FxHashSet::insert`: add an identifier to a set (no effect when already
a member). -/
def setInsert (id : RowId) (s : List RowId) : List RowId :=
  if id ∈ s then s else s ++ [id]

/-- `FxHashMap::get` on the inverted mapping: the set stored at a key, if
any. -/
def lookupKey {K : Type} [DecidableEq K] : KeySets K → K → Option (List RowId)
  | [], _ => none
  | (k', s) :: rest, k => if k = k' then some s else lookupKey rest k

/-- The set stored at a key, defaulting to the empty set
(`cloned().unwrap_or_default()` in `Index::get`). -/
def getSet {K : Type} [DecidableEq K] (m : KeySets K) (k : K) : List RowId :=
  (lookupKey m k).getD []

/-- One step of `Index::insert`: `self.index.entry(key).or_default().insert(row.id())`. -/
def mapInsertKey {K : Type} [DecidableEq K] (k : K) (id : RowId) : KeySets K → KeySets K
  | [] => [(k, setInsert id [])]
  | (k', s) :: rest =>
    if k = k' then (k', setInsert id s) :: rest
    else (k', s) :: mapInsertKey k id rest

/-- One step of `Index::delete`: remove the identifier from the key's set and
drop the key when its set becomes empty. -/
def mapDeleteKey {K : Type} [DecidableEq K] (k : K) (id : RowId) : KeySets K → KeySets K
  | [] => []
  | (k', s) :: rest =>
    if k = k' then
      if s.erase id = [] then rest else (k', s.erase id) :: rest
    else (k', s) :: mapDeleteKey k id rest

/-- The `for key in keys` loop of `Index::insert`. -/
def insKeys {K : Type} [DecidableEq K] (id : RowId) (ks : List K) (m : KeySets K) : KeySets K :=
  ks.foldl (fun m k => mapInsertKey k id m) m

/-- The `for key in keys` loop of `Index::delete`. -/
def delKeys {K : Type} [DecidableEq K] (id : RowId) (ks : List K) (m : KeySets K) : KeySets K :=
  ks.foldl (fun m k => mapDeleteKey k id m) m

/-- `Index<KeyT, ValueT>` from src/index.rs: a key-extraction function and
the inverted mapping it maintains. -/
structure Index (K V : Type) where
  index_function : Indexed V → List K
  index : KeySets K

/-- `Index::new` from src/index.rs. -/
def Index.new {K V : Type} (f : Indexed V → List K) : Index K V := ⟨f, []⟩

/-- `Index::get` from src/index.rs. -/
def Index.get {K V : Type} [DecidableEq K] (idx : Index K V) (k : K) : List RowId :=
  getSet idx.index k

/-- `Index::keys` from src/index.rs. -/
def Index.keys {K V : Type} (idx : Index K V) : List K :=
  idx.index.map Prod.fst

/-- `Index::insert` (the `Indexable` impl) from src/index.rs. -/
def Index.insert {K V : Type} [DecidableEq K] (idx : Index K V) (row : Indexed V) : Index K V :=
  { idx with index := insKeys row.id (idx.index_function row) idx.index }

/-- `Index::delete` (the `Indexable` impl) from src/index.rs. -/
def Index.delete {K V : Type} [DecidableEq K] (idx : Index K V) (row : Indexed V) : Index K V :=
  { idx with index := delKeys row.id (idx.index_function row) idx.index }

/-- The primary row table (`DashMap<RowId, RowT>` of the store), modelled as
an association list with unique keys. -/
abbrev RowTable (V : Type) := List (RowId × V)

/-- Table lookup (`rows.get(&id)`). -/
def lookupRow {V : Type} : RowTable V → RowId → Option V
  | [], _ => none
  | (i, v) :: rest, id => if id = i then some v else lookupRow rest id

/-- Table insert (`rows.insert(id, value)`), overwriting an existing entry. -/
def tableInsert {V : Type} (id : RowId) (v : V) : RowTable V → RowTable V
  | [] => [(id, v)]
  | (i, w) :: rest => if i = id then (id, v) :: rest else (i, w) :: tableInsert id v rest

/-- Table removal (`rows.remove(&id)`). -/
def tableRemove {V : Type} (id : RowId) (rows : RowTable V) : RowTable V :=
  rows.filter (fun r => decide (r.1 ≠ id))

/-- `IndexRead::get` from src/index.rs: resolve every candidate identifier of
the key against the live table, silently dropping identifiers whose row is
absent. -/
def IndexRead.get {K V : Type} [DecidableEq K] (rows : RowTable V) (idx : Index K V)
    (k : K) : List (Indexed V) :=
  (idx.get k).filterMap (fun id => (lookupRow rows id).map (fun v => Indexed.new id v))

/-- `IndexRead::get_values` from src/index.rs. -/
def IndexRead.get_values {K V : Type} [DecidableEq K] (rows : RowTable V) (idx : Index K V)
    (k : K) : List V :=
  (IndexRead.get rows idx k).map (fun i => i.value)

/-- `IndexRead::keys` from src/index.rs. -/
def IndexRead.keys {K V : Type} (idx : Index K V) : List K :=
  idx.keys

/-- `HashSync<RowT>` from src/hashsync.rs: the primary table, the fresh-id
generator and the registered indexes (all specialised to one key type). -/
structure HashSync (K V : Type) where
  rows : RowTable V
  next_id : RowId
  indexes : List (Index K V)

/-- `HashSync::new` from src/hashsync.rs. -/
def HashSync.new {K V : Type} : HashSync K V :=
  { rows := [], next_id := RowId.new 0, indexes := [] }

/-- `HashSync::keys` from src/hashsync.rs. -/
def HashSync.keys {K V : Type} (hs : HashSync K V) : List RowId :=
  hs.rows.map Prod.fst

/-- `HashSync::by_id` from src/hashsync.rs. -/
def HashSync.by_id {K V : Type} (hs : HashSync K V) (id : RowId) : Option V :=
  lookupRow hs.rows id

/-- `HashSync::by_id_indexed` from src/hashsync.rs. -/
def HashSync.by_id_indexed {K V : Type} (hs : HashSync K V) (id : RowId) : Option (Indexed V) :=
  (hs.by_id id).map (fun v => Indexed.new id v)

/-- `HashSync::insert_at` from src/hashsync.rs: feed the indexed row to every
registered index, then commit it to the primary table. -/
def HashSync.insert_at {K V : Type} [DecidableEq K] (hs : HashSync K V) (id : RowId)
    (v : V) : HashSync K V :=
  { hs with
    indexes := hs.indexes.map (fun idx => idx.insert (Indexed.new id v)),
    rows := tableInsert id v hs.rows }

/-- `HashSync::insert` from src/hashsync.rs: insert at the current fresh
identifier, advance the generator, return the identifier. -/
def HashSync.insert {K V : Type} [DecidableEq K] (hs : HashSync K V) (v : V) :
    HashSync K V × RowId :=
  let id := hs.next_id
  let hs' := hs.insert_at id v
  ({ hs' with next_id := hs.next_id.next }, id)

/-- `HashSync::delete` from src/hashsync.rs: remove the row from the table
and, when one was present, replay its captured value through every index. -/
def HashSync.delete {K V : Type} [DecidableEq K] (hs : HashSync K V) (id : RowId) :
    HashSync K V × Option V :=
  match lookupRow hs.rows id with
  | some v =>
    ({ rows := tableRemove id hs.rows,
       next_id := hs.next_id,
       indexes := hs.indexes.map (fun idx => idx.delete (Indexed.new id v)) }, some v)
  | none => (hs, none)

/-- `HashSync::replace` from src/hashsync.rs: delete, insert at the given
identifier, and raise the generator to `max(id.next(), next_id)`. -/
def HashSync.replace {K V : Type} [DecidableEq K] (hs : HashSync K V) (id : RowId)
    (v : V) : HashSync K V :=
  let hs1 := (hs.delete id).1
  let hs2 := hs1.insert_at id v
  { hs2 with next_id := RowId.maxId id.next hs2.next_id }

/-- The backfill loop of `HashSync::index_id_many`: insert every current row
into a fresh index. -/
def backfill {K V : Type} [DecidableEq K] (f : Indexed V → List K) (rows : RowTable V) :
    Index K V :=
  rows.foldl (fun idx r => idx.insert (Indexed.new r.1 r.2)) (Index.new f)

/-- `HashSync::index_id_many` from src/hashsync.rs: build an index backfilled
from the current rows, register its write half, return its read half (the
read half shares state with the registered write half, so here the one
`Index` value is both). -/
def HashSync.index_id_many {K V : Type} [DecidableEq K] (hs : HashSync K V)
    (f : Indexed V → List K) : HashSync K V × Index K V :=
  let idx := backfill f hs.rows
  ({ hs with indexes := hs.indexes ++ [idx] }, idx)

/-- `HashSync::index_id` from src/hashsync.rs. -/
def HashSync.index_id {K V : Type} [DecidableEq K] (hs : HashSync K V)
    (f : Indexed V → K) : HashSync K V × Index K V :=
  hs.index_id_many (fun indexed => [f indexed])

/-- `HashSync::index_many` from src/hashsync.rs. -/
def HashSync.index_many {K V : Type} [DecidableEq K] (hs : HashSync K V)
    (f : V → List K) : HashSync K V × Index K V :=
  hs.index_id_many (fun indexed => f indexed.value)

/-- `HashSync::index` from src/hashsync.rs. -/
def HashSync.index {K V : Type} [DecidableEq K] (hs : HashSync K V)
    (f : V → K) : HashSync K V × Index K V :=
  hs.index_many (fun v => [f v])

/-- `HashSync::drop_indexes` from src/hashsync.rs. -/
def HashSync.drop_indexes {K V : Type} (hs : HashSync K V) : HashSync K V :=
  { rows := hs.rows, next_id := hs.next_id, indexes := [] }

/-- A store mutation, for reasoning about operation sequences. -/
inductive StoreOp (K V : Type) where
  | ins (v : V)
  | del (id : RowId)
  | rep (id : RowId) (v : V)

/-- Apply one mutation to the store. -/
def HashSync.applyOp {K V : Type} [DecidableEq K] (hs : HashSync K V) :
    StoreOp K V → HashSync K V
  | .ins v => (hs.insert v).1
  | .del id => (hs.delete id).1
  | .rep id v => hs.replace id v

/-- Run a sequence of mutations. -/
def runOps {K V : Type} [DecidableEq K] (hs : HashSync K V) :
    List (StoreOp K V) → HashSync K V
  | [] => hs
  | op :: rest => runOps (hs.applyOp op) rest

/-- Run a sequence of mutations, collecting the identifiers returned by the
inserts and the identifiers passed to the replaces. -/
def runCollect {K V : Type} [DecidableEq K] (hs : HashSync K V) :
    List (StoreOp K V) → HashSync K V × List RowId
  | [] => (hs, [])
  | .ins v :: rest =>
    let step := hs.insert v
    let tail := runCollect step.1 rest
    (tail.1, step.2 :: tail.2)
  | .del id :: rest => runCollect (hs.delete id).1 rest
  | .rep id v :: rest =>
    let tail := runCollect (hs.replace id v) rest
    (tail.1, id :: tail.2)

/-- Run a sequence of plain inserts. -/
def insertMany {K V : Type} [DecidableEq K] (hs : HashSync K V) (vs : List V) : HashSync K V :=
  vs.foldl (fun h v => (h.insert v).1) hs

/-- Well-formedness of an inverted mapping, exactly the representation
invariants of `FxHashMap<KeyT, FxHashSet<RowId>>` plus the no-empty-set
invariant maintained by `Index::delete`: keys are unique, every stored set is
duplicate-free and non-empty. -/
def IndexWf {K : Type} (m : KeySets K) : Prop :=
  (m.map Prod.fst).Nodup ∧ ∀ p ∈ m, p.2.Nodup ∧ p.2 ≠ []

/-- Index states reachable from `Index::new` by insert and delete calls. -/
inductive ReachableIndex {K V : Type} [DecidableEq K] : Index K V → Prop
  | new (f : Indexed V → List K) : ReachableIndex (Index.new f)
  | ins (e : Indexed V) {idx : Index K V} :
      ReachableIndex idx → ReachableIndex (idx.insert e)
  | del (e : Indexed V) {idx : Index K V} :
      ReachableIndex idx → ReachableIndex (idx.delete e)

/-- Store sanity: the primary table has unique row identifiers and the
generator is strictly above every live identifier.  This holds in every
store reachable from `HashSync::new`. -/
def StoreWf {K V : Type} (hs : HashSync K V) : Prop :=
  (hs.rows.map Prod.fst).Nodup ∧ ∀ r ∈ hs.rows, r.1.val < hs.next_id.val

/-- The index-table agreement invariant: every key-set is duplicate-free and
holds exactly the identifiers of the table rows whose extracted keys contain
that key. -/
def IndexInv {K V : Type} [DecidableEq K] (f : Indexed V → List K) (rows : RowTable V)
    (m : KeySets K) : Prop :=
  (∀ k, (getSet m k).Nodup) ∧
  (∀ k id, id ∈ getSet m k ↔ ∃ v, (id, v) ∈ rows ∧ k ∈ f (Indexed.new id v))

/-- The combined invariant carried through the C1 insert runs: a sane store
whose single registered index (with key function `f`) agrees with the
table. -/
def C1Inv {K V : Type} [DecidableEq K] (f : Indexed V → List K) (hs : HashSync K V) : Prop :=
  StoreWf hs ∧ ∃ m, hs.indexes = [Index.mk f m] ∧ IndexInv f hs.rows m

/-- Key-extraction function used by concrete witness states: index each row
value under itself. -/
def valueKeyFn : Indexed Nat → List Nat := fun ix => [ix.value]

/-- A concrete reachable index used by the C3 witness. -/
def c3idx : Index Nat Nat := (Index.new valueKeyFn).insert (Indexed.new (RowId.new 0) 5)

/-- Concrete table and index for the C2 witness: the index still mentions a
row that is absent from the table. -/
def c2rows : RowTable Nat := [(RowId.new 1, 4)]

/-- Concrete index state for the C2 witness. -/
def c2idx : Index Nat Nat := ⟨valueKeyFn, [(4, [RowId.new 0, RowId.new 1])]⟩

/-- Concrete one-row store for the C4 and C5 witnesses. -/
def c4hs : HashSync Nat Nat := ((HashSync.new : HashSync Nat Nat).insert 3).1

/-- Concrete index state reached in the C1 witness run. -/
def c1idxW : Index Nat Nat := ⟨valueKeyFn, [(4, [RowId.new 0, RowId.new 1])]⟩

/-- An index state holding an empty key-set, on which the literal round-trip
claim fails. -/
def c10s : Index Nat Nat := ⟨valueKeyFn, [(0, [])]⟩

/-- The entry inserted and deleted in the C10 counterexample. -/
def c10e : Indexed Nat := ⟨RowId.new 0, 0⟩

/-- A well-formed index state for the C10 witness. -/
def c10w : Index Nat Nat := ⟨valueKeyFn, [(5, [RowId.new 1])]⟩

/-- The entry inserted and deleted in the C10 witness. -/
def c10we : Indexed Nat := ⟨RowId.new 0, 5⟩

section SetLemmas

theorem mem_setInsert {a id : RowId} {s : List RowId} :
    a ∈ setInsert id s ↔ a ∈ s ∨ a = id := by
  unfold setInsert
  by_cases h : id ∈ s
  · rw [if_pos h]
    constructor
    · exact fun hm => Or.inl hm
    · rintro (hm | rfl) <;> assumption
  · rw [if_neg h]
    simp [List.mem_append]

theorem mem_setInsert_self (id : RowId) (s : List RowId) : id ∈ setInsert id s :=
  mem_setInsert.mpr (Or.inr rfl)

theorem mem_setInsert_of_mem {a : RowId} (id : RowId) {s : List RowId} (h : a ∈ s) :
    a ∈ setInsert id s :=
  mem_setInsert.mpr (Or.inl h)

theorem setInsert_of_mem {id : RowId} {s : List RowId} (h : id ∈ s) :
    setInsert id s = s := if_pos h

theorem setInsert_of_not_mem {id : RowId} {s : List RowId} (h : id ∉ s) :
    setInsert id s = s ++ [id] := if_neg h

theorem setInsert_idem (id : RowId) (s : List RowId) :
    setInsert id (setInsert id s) = setInsert id s :=
  setInsert_of_mem (mem_setInsert_self id s)

theorem setInsert_nodup {id : RowId} {s : List RowId} (h : s.Nodup) :
    (setInsert id s).Nodup := by
  by_cases hm : id ∈ s
  · rw [setInsert_of_mem hm]
    exact h
  · rw [setInsert_of_not_mem hm]
    refine List.Nodup.append h (List.nodup_singleton id) ?_
    intro x hx hx2
    rw [List.mem_singleton] at hx2
    subst hx2
    exact hm hx

theorem setInsert_ne_nil (id : RowId) (s : List RowId) : setInsert id s ≠ [] := by
  by_cases hm : id ∈ s
  · rw [setInsert_of_mem hm]
    intro h
    subst h
    exact List.not_mem_nil id hm
  · rw [setInsert_of_not_mem hm]
    simp

end SetLemmas

section MapLemmas

variable {K : Type} [DecidableEq K]

theorem getSet_nil (k : K) : getSet ([] : KeySets K) k = [] := rfl

theorem getSet_cons_self (k : K) (s : List RowId) (rest : KeySets K) :
    getSet ((k, s) :: rest) k = s := by
  simp [getSet, lookupKey]

theorem getSet_cons_ne {k k' : K} (hne : k ≠ k') (s : List RowId) (rest : KeySets K) :
    getSet ((k', s) :: rest) k = getSet rest k := by
  simp [getSet, lookupKey, hne]

theorem lookupKey_mem {m : KeySets K} {k : K} {s : List RowId}
    (h : lookupKey m k = some s) : (k, s) ∈ m := by
  induction m with
  | nil => simp [lookupKey] at h
  | cons p rest ih =>
    obtain ⟨k', s'⟩ := p
    simp only [lookupKey] at h
    split at h
    · cases h
      subst_vars
      exact List.mem_cons_self _ _
    · exact List.mem_cons_of_mem _ (ih h)

theorem lookupKey_of_mem_keys {m : KeySets K} {k : K}
    (h : k ∈ m.map Prod.fst) : ∃ s, lookupKey m k = some s := by
  induction m with
  | nil => simp at h
  | cons p rest ih =>
    obtain ⟨k', s'⟩ := p
    by_cases hk : k = k'
    · exact ⟨s', by simp [lookupKey, hk]⟩
    · simp only [List.map_cons, List.mem_cons] at h
      rcases h with h | h
      · exact absurd h hk
      · obtain ⟨s, hs⟩ := ih h
        exact ⟨s, by simp [lookupKey, hk, hs]⟩

theorem lookupKey_eq_none_of_not_mem_keys {m : KeySets K} {k : K}
    (h : k ∉ m.map Prod.fst) : lookupKey m k = none := by
  cases hl : lookupKey m k with
  | none => rfl
  | some s => exact absurd (List.mem_map.mpr ⟨(k, s), lookupKey_mem hl, rfl⟩) h

theorem getSet_nodup {m : KeySets K} (h : ∀ p ∈ m, p.2.Nodup) (k : K) :
    (getSet m k).Nodup := by
  unfold getSet
  cases hl : lookupKey m k with
  | none => simp
  | some s =>
    have hs : s.Nodup := h (k, s) (lookupKey_mem hl)
    simpa using hs

theorem getSet_ne_nil_of_mem_keys {m : KeySets K} (hne : ∀ p ∈ m, p.2 ≠ []) {k : K}
    (h : k ∈ m.map Prod.fst) : getSet m k ≠ [] := by
  obtain ⟨s, hs⟩ := lookupKey_of_mem_keys h
  have hgs : getSet m k = s := by simp [getSet, hs]
  rw [hgs]
  exact hne (k, s) (lookupKey_mem hs)

theorem getSet_mapInsertKey (a : K) (id : RowId) (m : KeySets K) (k : K) :
    getSet (mapInsertKey a id m) k =
      if k = a then setInsert id (getSet m k) else getSet m k := by
  induction m with
  | nil =>
    by_cases h : k = a <;> simp [mapInsertKey, getSet, lookupKey, h]
  | cons p rest ih =>
    obtain ⟨k', s⟩ := p
    by_cases hak : a = k'
    · subst hak
      by_cases hk : k = a <;> simp [mapInsertKey, getSet, lookupKey, hk]
    · rw [show mapInsertKey a id ((k', s) :: rest) =
          (k', s) :: mapInsertKey a id rest by simp [mapInsertKey, hak]]
      by_cases hk : k = k'
      · subst hk
        have hka : ¬ k = a := fun h => hak h.symm
        rw [getSet_cons_self, getSet_cons_self, if_neg hka]
      · rw [getSet_cons_ne hk, getSet_cons_ne hk, ih]

theorem keys_mapInsertKey (a : K) (id : RowId) (m : KeySets K) :
    (mapInsertKey a id m).map Prod.fst =
      if a ∈ m.map Prod.fst then m.map Prod.fst else m.map Prod.fst ++ [a] := by
  induction m with
  | nil => simp [mapInsertKey]
  | cons p rest ih =>
    obtain ⟨k', s⟩ := p
    by_cases hak : a = k'
    · subst hak
      simp [mapInsertKey]
    · have hmem : a ∈ ((k', s) :: rest).map Prod.fst ↔ a ∈ rest.map Prod.fst := by
        simp [List.mem_cons, hak]
      rw [show mapInsertKey a id ((k', s) :: rest) =
          (k', s) :: mapInsertKey a id rest by simp [mapInsertKey, hak]]
      by_cases h : a ∈ rest.map Prod.fst
      · rw [if_pos (hmem.mpr h)]
        simp only [List.map_cons, ih, if_pos h]
      · rw [if_neg (fun hc => h (hmem.mp hc))]
        simp only [List.map_cons, ih, if_neg h]
        simp

theorem nodupKeys_mapInsertKey {a : K} {id : RowId} {m : KeySets K}
    (h : (m.map Prod.fst).Nodup) : ((mapInsertKey a id m).map Prod.fst).Nodup := by
  rw [keys_mapInsertKey]
  by_cases hm : a ∈ m.map Prod.fst
  · rw [if_pos hm]
    exact h
  · rw [if_neg hm]
    refine List.Nodup.append h (List.nodup_singleton a) ?_
    intro x hx hx2
    rw [List.mem_singleton] at hx2
    subst hx2
    exact hm hx

theorem sets_nodup_mapInsertKey {a : K} {id : RowId} {m : KeySets K}
    (h : ∀ p ∈ m, p.2.Nodup) : ∀ p ∈ mapInsertKey a id m, p.2.Nodup := by
  induction m with
  | nil =>
    intro p hp
    simp only [mapInsertKey, List.mem_singleton] at hp
    subst hp
    exact setInsert_nodup List.nodup_nil
  | cons q rest ih =>
    obtain ⟨k', s⟩ := q
    intro p hp
    simp only [mapInsertKey] at hp
    split at hp
    · rcases List.mem_cons.mp hp with h1 | h1
      · subst h1
        have hs : s.Nodup := h (k', s) (List.mem_cons_self _ _)
        exact setInsert_nodup hs
      · exact h _ (List.mem_cons_of_mem _ h1)
    · rcases List.mem_cons.mp hp with h1 | h1
      · subst h1
        exact h _ (List.mem_cons_self _ _)
      · exact ih (fun q hq => h _ (List.mem_cons_of_mem _ hq)) _ h1

theorem sets_ne_nil_mapInsertKey {a : K} {id : RowId} {m : KeySets K}
    (h : ∀ p ∈ m, p.2 ≠ []) : ∀ p ∈ mapInsertKey a id m, p.2 ≠ [] := by
  induction m with
  | nil =>
    intro p hp
    simp only [mapInsertKey, List.mem_singleton] at hp
    subst hp
    show setInsert id [] ≠ []
    exact setInsert_ne_nil id []
  | cons q rest ih =>
    obtain ⟨k', s⟩ := q
    intro p hp
    simp only [mapInsertKey] at hp
    split at hp
    · rcases List.mem_cons.mp hp with h1 | h1
      · subst h1
        show setInsert id s ≠ []
        exact setInsert_ne_nil id s
      · exact h _ (List.mem_cons_of_mem _ h1)
    · rcases List.mem_cons.mp hp with h1 | h1
      · subst h1
        exact h _ (List.mem_cons_self _ _)
      · exact ih (fun q hq => h _ (List.mem_cons_of_mem _ hq)) _ h1

theorem keys_mapDeleteKey_sublist (a : K) (id : RowId) (m : KeySets K) :
    ((mapDeleteKey a id m).map Prod.fst).Sublist (m.map Prod.fst) := by
  induction m with
  | nil => simp [mapDeleteKey]
  | cons p rest ih =>
    obtain ⟨k', s⟩ := p
    simp only [mapDeleteKey]
    split
    · split
      · simp only [List.map_cons]
        exact (List.Sublist.refl _).cons k'
      · simp
    · simpa using ih.cons₂ k'

theorem nodupKeys_mapDeleteKey {a : K} {id : RowId} {m : KeySets K}
    (h : (m.map Prod.fst).Nodup) : ((mapDeleteKey a id m).map Prod.fst).Nodup :=
  h.sublist (keys_mapDeleteKey_sublist a id m)

theorem sets_nodup_mapDeleteKey {a : K} {id : RowId} {m : KeySets K}
    (h : ∀ p ∈ m, p.2.Nodup) : ∀ p ∈ mapDeleteKey a id m, p.2.Nodup := by
  induction m with
  | nil => simp [mapDeleteKey]
  | cons q rest ih =>
    obtain ⟨k', s⟩ := q
    intro p hp
    simp only [mapDeleteKey] at hp
    split at hp
    · split at hp
      · exact h _ (List.mem_cons_of_mem _ hp)
      · rcases List.mem_cons.mp hp with h1 | h1
        · subst h1
          have hs : s.Nodup := h (k', s) (List.mem_cons_self _ _)
          exact hs.erase id
        · exact h _ (List.mem_cons_of_mem _ h1)
    · rcases List.mem_cons.mp hp with h1 | h1
      · subst h1
        exact h _ (List.mem_cons_self _ _)
      · exact ih (fun q hq => h _ (List.mem_cons_of_mem _ hq)) _ h1

theorem sets_ne_nil_mapDeleteKey {a : K} {id : RowId} {m : KeySets K}
    (h : ∀ p ∈ m, p.2 ≠ []) : ∀ p ∈ mapDeleteKey a id m, p.2 ≠ [] := by
  induction m with
  | nil => simp [mapDeleteKey]
  | cons q rest ih =>
    obtain ⟨k', s⟩ := q
    intro p hp
    simp only [mapDeleteKey] at hp
    split at hp
    · split at hp
      · exact h _ (List.mem_cons_of_mem _ hp)
      · rcases List.mem_cons.mp hp with h1 | h1
        · subst h1
          show s.erase id ≠ []
          assumption
        · exact h _ (List.mem_cons_of_mem _ h1)
    · rcases List.mem_cons.mp hp with h1 | h1
      · subst h1
        exact h _ (List.mem_cons_self _ _)
      · exact ih (fun q hq => h _ (List.mem_cons_of_mem _ hq)) _ h1

theorem getSet_mapDeleteKey {m : KeySets K} (hk : (m.map Prod.fst).Nodup)
    (a : K) (id : RowId) (k : K) :
    getSet (mapDeleteKey a id m) k =
      if k = a then (getSet m k).erase id else getSet m k := by
  induction m with
  | nil => by_cases h : k = a <;> simp [mapDeleteKey, getSet, lookupKey, h]
  | cons p rest ih =>
    obtain ⟨k', s⟩ := p
    have hk2 : (rest.map Prod.fst).Nodup := (List.nodup_cons.mp hk).2
    have hknotin : k' ∉ rest.map Prod.fst := (List.nodup_cons.mp hk).1
    by_cases hak : a = k'
    · subst hak
      rw [show mapDeleteKey a id ((a, s) :: rest) =
          if s.erase id = [] then rest else (a, s.erase id) :: rest by
            simp [mapDeleteKey]]
      by_cases hka : k = a
      · subst hka
        rw [if_pos rfl, getSet_cons_self]
        by_cases he : s.erase id = []
        · rw [if_pos he]
          have hnone : lookupKey rest k = none :=
            lookupKey_eq_none_of_not_mem_keys hknotin
          rw [he]
          simp [getSet, hnone]
        · rw [if_neg he, getSet_cons_self]
      · rw [if_neg hka]
        by_cases he : s.erase id = []
        · rw [if_pos he, getSet_cons_ne hka]
        · rw [if_neg he, getSet_cons_ne hka, getSet_cons_ne hka]
    · rw [show mapDeleteKey a id ((k', s) :: rest) =
          (k', s) :: mapDeleteKey a id rest by simp [mapDeleteKey, hak]]
      by_cases hkk : k = k'
      · subst hkk
        have hka : ¬ k = a := fun h => hak h.symm
        rw [getSet_cons_self, getSet_cons_self, if_neg hka]
      · rw [getSet_cons_ne hkk, getSet_cons_ne hkk, ih hk2]

end MapLemmas

section FoldLemmas

variable {K V : Type} [DecidableEq K]

theorem getSet_insKeys (id : RowId) (ks : List K) (m : KeySets K) (k : K) :
    getSet (insKeys id ks m) k =
      if k ∈ ks then setInsert id (getSet m k) else getSet m k := by
  induction ks generalizing m with
  | nil => simp [insKeys]
  | cons a t ih =>
    have hstep : insKeys id (a :: t) m = insKeys id t (mapInsertKey a id m) := rfl
    rw [hstep, ih, getSet_mapInsertKey]
    by_cases hka : k = a
    · subst hka
      by_cases hkt : k ∈ t
      · simp [hkt, setInsert_idem]
      · simp [hkt]
    · by_cases hkt : k ∈ t <;> simp [hkt, hka, List.mem_cons]

theorem nodupKeys_insKeys (id : RowId) (ks : List K) {m : KeySets K}
    (h : (m.map Prod.fst).Nodup) : ((insKeys id ks m).map Prod.fst).Nodup := by
  induction ks generalizing m with
  | nil => exact h
  | cons a t ih => exact ih (nodupKeys_mapInsertKey h)

theorem sets_nodup_insKeys (id : RowId) (ks : List K) {m : KeySets K}
    (h : ∀ p ∈ m, p.2.Nodup) : ∀ p ∈ insKeys id ks m, p.2.Nodup := by
  induction ks generalizing m with
  | nil => exact h
  | cons a t ih => exact ih (sets_nodup_mapInsertKey h)

theorem sets_ne_nil_insKeys (id : RowId) (ks : List K) {m : KeySets K}
    (h : ∀ p ∈ m, p.2 ≠ []) : ∀ p ∈ insKeys id ks m, p.2 ≠ [] := by
  induction ks generalizing m with
  | nil => exact h
  | cons a t ih => exact ih (sets_ne_nil_mapInsertKey h)

theorem nodupKeys_delKeys (id : RowId) (ks : List K) {m : KeySets K}
    (h : (m.map Prod.fst).Nodup) : ((delKeys id ks m).map Prod.fst).Nodup := by
  induction ks generalizing m with
  | nil => exact h
  | cons a t ih => exact ih (nodupKeys_mapDeleteKey h)

theorem sets_nodup_delKeys (id : RowId) (ks : List K) {m : KeySets K}
    (h : ∀ p ∈ m, p.2.Nodup) : ∀ p ∈ delKeys id ks m, p.2.Nodup := by
  induction ks generalizing m with
  | nil => exact h
  | cons a t ih => exact ih (sets_nodup_mapDeleteKey h)

theorem sets_ne_nil_delKeys (id : RowId) (ks : List K) {m : KeySets K}
    (h : ∀ p ∈ m, p.2 ≠ []) : ∀ p ∈ delKeys id ks m, p.2 ≠ [] := by
  induction ks generalizing m with
  | nil => exact h
  | cons a t ih => exact ih (sets_ne_nil_mapDeleteKey h)

theorem getSet_delKeys (id : RowId) (ks : List K) {m : KeySets K}
    (hk : (m.map Prod.fst).Nodup) (hs : ∀ p ∈ m, p.2.Nodup) (k : K) :
    getSet (delKeys id ks m) k =
      if k ∈ ks then (getSet m k).erase id else getSet m k := by
  induction ks generalizing m with
  | nil => simp [delKeys]
  | cons a t ih =>
    have hstep : delKeys id (a :: t) m = delKeys id t (mapDeleteKey a id m) := rfl
    rw [hstep, ih (nodupKeys_mapDeleteKey hk) (sets_nodup_mapDeleteKey hs),
        getSet_mapDeleteKey hk]
    by_cases hka : k = a
    · subst hka
      by_cases hkt : k ∈ t
      · have hnd : (getSet m k).Nodup := getSet_nodup hs k
        have herase : ((getSet m k).erase id).erase id = (getSet m k).erase id :=
          List.erase_of_not_mem hnd.not_mem_erase
        simp [hkt, herase]
      · simp [hkt]
    · by_cases hkt : k ∈ t <;> simp [hkt, hka, List.mem_cons]

theorem Index.insert_function (idx : Index K V) (e : Indexed V) :
    (idx.insert e).index_function = idx.index_function := rfl

theorem Index.delete_function (idx : Index K V) (e : Indexed V) :
    (idx.delete e).index_function = idx.index_function := rfl

theorem Index.get_insert (idx : Index K V) (e : Indexed V) (k : K) :
    (idx.insert e).get k =
      if k ∈ idx.index_function e then setInsert e.id (idx.get k) else idx.get k :=
  getSet_insKeys e.id (idx.index_function e) idx.index k

theorem mem_get_insert {idx : Index K V} {e : Indexed V} {k : K} {a : RowId} :
    a ∈ (idx.insert e).get k ↔ a ∈ idx.get k ∨ (a = e.id ∧ k ∈ idx.index_function e) := by
  rw [Index.get_insert]
  by_cases hm : k ∈ idx.index_function e
  · rw [if_pos hm, mem_setInsert]
    constructor
    · rintro (h | h)
      exacts [Or.inl h, Or.inr ⟨h, hm⟩]
    · rintro (h | ⟨h, _⟩)
      exacts [Or.inl h, Or.inr h]
  · rw [if_neg hm]
    constructor
    · exact Or.inl
    · rintro (h | ⟨_, hk⟩)
      exacts [h, absurd hk hm]

theorem indexWf_insert {idx : Index K V} (h : IndexWf idx.index) (e : Indexed V) :
    IndexWf (idx.insert e).index := by
  obtain ⟨hk, hs⟩ := h
  refine ⟨nodupKeys_insKeys e.id _ hk, fun p hp => ?_⟩
  constructor
  · exact sets_nodup_insKeys e.id _ (fun q hq => (hs q hq).1) p hp
  · exact sets_ne_nil_insKeys e.id _ (fun q hq => (hs q hq).2) p hp

theorem indexWf_delete {idx : Index K V} (h : IndexWf idx.index) (e : Indexed V) :
    IndexWf (idx.delete e).index := by
  obtain ⟨hk, hs⟩ := h
  refine ⟨nodupKeys_delKeys e.id _ hk, fun p hp => ?_⟩
  constructor
  · exact sets_nodup_delKeys e.id _ (fun q hq => (hs q hq).1) p hp
  · exact sets_ne_nil_delKeys e.id _ (fun q hq => (hs q hq).2) p hp

theorem reachable_wf {idx : Index K V} (h : ReachableIndex idx) : IndexWf idx.index := by
  induction h with
  | new f => exact ⟨List.nodup_nil, by simp [Index.new]⟩
  | ins e _ ih => exact indexWf_insert ih e
  | del e _ ih => exact indexWf_delete ih e

end FoldLemmas

/-- C3: deleting an entry removes its identifier from the key-set of every
key the index function produces on that entry, and in every reachable index
state (in particular after the delete) every key reported by `keys` has a
non-empty identifier set. -/
theorem C3_post_delete_shrinkage {K V : Type} [DecidableEq K] (idx : Index K V)
    (hreach : ReachableIndex idx) (e : Indexed V) :
    (∀ k ∈ idx.index_function e, e.id ∉ (idx.delete e).get k)
    ∧ (∀ k ∈ Index.keys idx, idx.get k ≠ [])
    ∧ (∀ k ∈ Index.keys (idx.delete e), (idx.delete e).get k ≠ []) := by
  obtain ⟨hk, hsets⟩ := reachable_wf hreach
  have hnodup : ∀ p ∈ idx.index, p.2.Nodup := fun p hp => (hsets p hp).1
  have hne : ∀ p ∈ idx.index, p.2 ≠ [] := fun p hp => (hsets p hp).2
  refine ⟨?_, ?_, ?_⟩
  · intro k hkmem
    have hdel : (idx.delete e).get k = (idx.get k).erase e.id := by
      show getSet (delKeys e.id (idx.index_function e) idx.index) k = _
      rw [getSet_delKeys e.id _ hk hnodup, if_pos hkmem]
      rfl
    rw [hdel]
    exact (getSet_nodup hnodup k).not_mem_erase
  · intro k hkmem
    exact getSet_ne_nil_of_mem_keys hne hkmem
  · obtain ⟨hk2, hsets2⟩ := reachable_wf (ReachableIndex.del e hreach)
    intro k hkmem
    exact getSet_ne_nil_of_mem_keys (fun p hp => (hsets2 p hp).2) hkmem

theorem C3_witness :
    (5 ∈ c3idx.index_function (Indexed.new (RowId.new 0) 5)
      ∧ RowId.new 0 ∉ (c3idx.delete (Indexed.new (RowId.new 0) 5)).get 5)
    ∧ (∀ k ∈ Index.keys c3idx, c3idx.get k ≠ []) := by
  have h := C3_post_delete_shrinkage c3idx
    (ReachableIndex.ins _ (ReachableIndex.new valueKeyFn)) (Indexed.new (RowId.new 0) 5)
  exact ⟨⟨by decide, h.1 5 (by decide)⟩, h.2.1⟩

section TableLemmas

variable {V : Type}

theorem lookupRow_tableInsert_self (id : RowId) (v : V) (rows : RowTable V) :
    lookupRow (tableInsert id v rows) id = some v := by
  induction rows with
  | nil => simp [tableInsert, lookupRow]
  | cons r rest ih =>
    obtain ⟨i, w⟩ := r
    by_cases h : i = id
    · simp [tableInsert, lookupRow, h]
    · have hne : ¬ id = i := fun hc => h hc.symm
      simp [tableInsert, lookupRow, h, hne, ih]

theorem lookupRow_tableInsert_ne {id id' : RowId} (h : id' ≠ id) (v : V)
    (rows : RowTable V) :
    lookupRow (tableInsert id v rows) id' = lookupRow rows id' := by
  induction rows with
  | nil => simp [tableInsert, lookupRow, h]
  | cons r rest ih =>
    obtain ⟨i, w⟩ := r
    by_cases hi : i = id
    · subst hi
      simp [tableInsert, lookupRow, h]
    · by_cases hii : id' = i <;> simp [tableInsert, lookupRow, hi, hii, ih]

theorem lookupRow_tableRemove_self (id : RowId) (rows : RowTable V) :
    lookupRow (tableRemove id rows) id = none := by
  induction rows with
  | nil => rfl
  | cons r rest ih =>
    obtain ⟨i, w⟩ := r
    by_cases hi : i = id
    · subst hi
      simpa [tableRemove, List.filter_cons] using ih
    · have hne : ¬ id = i := fun hc => hi hc.symm
      simpa [tableRemove, List.filter_cons, hi, lookupRow, hne] using ih

theorem lookupRow_tableRemove_ne {id id' : RowId} (h : id' ≠ id) (rows : RowTable V) :
    lookupRow (tableRemove id rows) id' = lookupRow rows id' := by
  induction rows with
  | nil => rfl
  | cons r rest ih =>
    obtain ⟨i, w⟩ := r
    by_cases hi : i = id
    · rw [hi]
      rw [show tableRemove id ((id, w) :: rest) = tableRemove id rest by
        simp [tableRemove, List.filter_cons]]
      rw [show lookupRow ((id, w) :: rest) id' = lookupRow rest id' by
        simp [lookupRow, h]]
      exact ih
    · by_cases hii : id' = i
      · simp [tableRemove, List.filter_cons, hi, lookupRow, hii]
      · simpa [tableRemove, List.filter_cons, hi, lookupRow, hii] using ih

end TableLemmas

@[simp] theorem Indexed.new_id {V : Type} (id : RowId) (v : V) :
    (Indexed.new id v).id = id := rfl

@[simp] theorem Indexed.new_value {V : Type} (id : RowId) (v : V) :
    (Indexed.new id v).value = v := rfl

theorem filterMap_resolve_ids {V : Type} (rows : RowTable V) (l : List RowId) :
    (l.filterMap (fun id => (lookupRow rows id).map (fun v => Indexed.new id v))).map
        (fun ix => ix.id) =
      l.filter (fun id => (lookupRow rows id).isSome) := by
  induction l with
  | nil => rfl
  | cons a t ih =>
    cases hl : lookupRow rows a with
    | none => simp [List.filterMap_cons, List.filter_cons, hl, ih]
    | some v => simp [List.filterMap_cons, List.filter_cons, hl, ih]

theorem mem_indexRead_get {K V : Type} [DecidableEq K] {rows : RowTable V}
    {idx : Index K V} {k : K} {ix : Indexed V} :
    ix ∈ IndexRead.get rows idx k ↔
      ix.id ∈ idx.get k ∧ lookupRow rows ix.id = some ix.value := by
  unfold IndexRead.get
  rw [List.mem_filterMap]
  constructor
  · rintro ⟨id, hid, hmap⟩
    cases hl : lookupRow rows id with
    | none =>
      rw [hl] at hmap
      cases hmap
    | some v =>
      rw [hl] at hmap
      have hx : Indexed.new id v = ix := by
        simpa using hmap
      subst hx
      exact ⟨hid, hl⟩
  · rintro ⟨hid, hl⟩
    refine ⟨ix.id, hid, ?_⟩
    rw [hl]
    rfl

/-- C2: a read through an index handle returns exactly the pairs of a live
candidate identifier and its current table value; candidates whose row is
absent are silently dropped, in order, and the operation is total (never an
error). -/
theorem C2_staleness_tolerant_get {K V : Type} [DecidableEq K] (rows : RowTable V)
    (idx : Index K V) (k : K) :
    ((IndexRead.get rows idx k).map (fun ix => ix.id) =
        (idx.get k).filter (fun id => (lookupRow rows id).isSome))
    ∧ (∀ ix : Indexed V, ix ∈ IndexRead.get rows idx k ↔
        ix.id ∈ idx.get k ∧ lookupRow rows ix.id = some ix.value) :=
  ⟨filterMap_resolve_ids rows (idx.get k), fun _ => mem_indexRead_get⟩

theorem C2_witness :
    ((IndexRead.get c2rows c2idx 4).map (fun ix => ix.id) =
        (c2idx.get 4).filter (fun id => (lookupRow c2rows id).isSome))
    ∧ (Indexed.new (RowId.new 1) 4 ∈ IndexRead.get c2rows c2idx 4 ↔
        (Indexed.new (RowId.new 1) 4).id ∈ c2idx.get 4
          ∧ lookupRow c2rows (Indexed.new (RowId.new 1) 4).id =
              some (Indexed.new (RowId.new 1) 4).value) := by
  have h := C2_staleness_tolerant_get c2rows c2idx 4
  exact ⟨h.1, h.2 (Indexed.new (RowId.new 1) 4)⟩

/-- C8: dropping the indexes keeps the primary table and the identifier
generator, empties the index list, changes no row accessor result, and a
previously obtained read handle still answers queries from its own index and
the shared table. -/
theorem C8_drop_indexes_frame {K V : Type} [DecidableEq K] (hs : HashSync K V) :
    (hs.drop_indexes).rows = hs.rows
    ∧ (hs.drop_indexes).next_id = hs.next_id
    ∧ (hs.drop_indexes).indexes = []
    ∧ (∀ id, (hs.drop_indexes).by_id id = hs.by_id id)
    ∧ (∀ id, (hs.drop_indexes).by_id_indexed id = hs.by_id_indexed id)
    ∧ (hs.drop_indexes).keys = hs.keys
    ∧ (∀ (idx : Index K V) (k : K),
        IndexRead.get (hs.drop_indexes).rows idx k = IndexRead.get hs.rows idx k
        ∧ IndexRead.get_values (hs.drop_indexes).rows idx k =
            IndexRead.get_values hs.rows idx k) :=
  ⟨rfl, rfl, rfl, fun _ => rfl, fun _ => rfl, rfl, fun _ _ => ⟨rfl, rfl⟩⟩

/-- C4: deletion returns exactly the stored value when the identifier is
live, removing the row from the table and replaying it through every index,
and is a complete no-op returning none when the identifier is unknown. -/
theorem C4_delete_result {K V : Type} [DecidableEq K] (hs : HashSync K V) (id : RowId) :
    ((hs.delete id).2 = hs.by_id id)
    ∧ (hs.by_id id = none → hs.delete id = (hs, none))
    ∧ (∀ v, hs.by_id id = some v →
        (hs.delete id).1.rows = tableRemove id hs.rows
        ∧ (hs.delete id).1.by_id id = none
        ∧ (hs.delete id).1.next_id = hs.next_id
        ∧ (hs.delete id).1.indexes =
            hs.indexes.map (fun idx => idx.delete (Indexed.new id v))) := by
  cases hl : lookupRow hs.rows id with
  | none =>
    refine ⟨?_, ?_, ?_⟩
    · simp [HashSync.delete, HashSync.by_id, hl]
    · intro _
      simp [HashSync.delete, hl]
    · intro v hv
      rw [HashSync.by_id, hl] at hv
      cases hv
  | some v0 =>
    refine ⟨?_, ?_, ?_⟩
    · simp [HashSync.delete, HashSync.by_id, hl]
    · intro hnone
      rw [HashSync.by_id, hl] at hnone
      cases hnone
    · intro v hv
      rw [HashSync.by_id, hl] at hv
      cases hv
      refine ⟨?_, ?_, ?_, ?_⟩
      · simp [HashSync.delete, hl]
      · simp [HashSync.delete, HashSync.by_id, hl, lookupRow_tableRemove_self]
      · simp [HashSync.delete, hl]
      · simp [HashSync.delete, hl]

theorem C4_witness :
    (c4hs.by_id (RowId.new 0) = some 3)
    ∧ (c4hs.delete (RowId.new 0)).1.by_id (RowId.new 0) = none
    ∧ (c4hs.delete (RowId.new 0)).2 = c4hs.by_id (RowId.new 0) := by
  have h := C4_delete_result c4hs (RowId.new 0)
  exact ⟨by decide, (h.2.2 3 (by decide)).2.1, h.1⟩

/-- C5: replace makes the table map the identifier to the new value whether
or not it previously existed, leaves every other row unchanged, and passes
every registered index through the delete of the captured old entry (when
one existed) followed by the insert of the new entry. -/
theorem C5_replace_semantics {K V : Type} [DecidableEq K] (hs : HashSync K V)
    (id : RowId) (v : V) :
    ((hs.replace id v).by_id id = some v)
    ∧ (∀ id', id' ≠ id → (hs.replace id v).by_id id' = hs.by_id id')
    ∧ ((hs.replace id v).indexes =
        ((hs.delete id).1.indexes).map (fun idx => idx.insert (Indexed.new id v)))
    ∧ (∀ w, hs.by_id id = some w →
        (hs.replace id v).indexes =
          (hs.indexes.map (fun idx => idx.delete (Indexed.new id w))).map
            (fun idx => idx.insert (Indexed.new id v)))
    ∧ (hs.by_id id = none →
        (hs.replace id v).indexes =
          hs.indexes.map (fun idx => idx.insert (Indexed.new id v))) := by
  refine ⟨?_, ?_, ?_, ?_, ?_⟩
  · show lookupRow (tableInsert id v (hs.delete id).1.rows) id = some v
    exact lookupRow_tableInsert_self id v _
  · intro id' hne
    show lookupRow (tableInsert id v (hs.delete id).1.rows) id' = lookupRow hs.rows id'
    rw [lookupRow_tableInsert_ne hne]
    cases hl : lookupRow hs.rows id with
    | none => simp [HashSync.delete, hl]
    | some w => simp [HashSync.delete, hl, lookupRow_tableRemove_ne hne]
  · rfl
  · intro w hw
    rw [HashSync.by_id] at hw
    show ((hs.delete id).1.indexes).map (fun idx => idx.insert (Indexed.new id v)) = _
    simp [HashSync.delete, hw]
  · intro hnone
    rw [HashSync.by_id] at hnone
    show ((hs.delete id).1.indexes).map (fun idx => idx.insert (Indexed.new id v)) = _
    simp [HashSync.delete, hnone]

theorem C5_witness :
    ((c4hs.replace (RowId.new 0) 7).by_id (RowId.new 0) = some 7)
    ∧ (RowId.new 1 ≠ RowId.new 0
        ∧ (c4hs.replace (RowId.new 0) 7).by_id (RowId.new 1) = c4hs.by_id (RowId.new 1)) := by
  have h := C5_replace_semantics c4hs (RowId.new 0) 7
  exact ⟨h.1, by decide, h.2.1 (RowId.new 1) (by decide)⟩

section Monotone

variable {K V : Type} [DecidableEq K]

theorem delete_next_id (hs : HashSync K V) (id : RowId) :
    (hs.delete id).1.next_id = hs.next_id := by
  unfold HashSync.delete
  cases lookupRow hs.rows id <;> rfl

theorem insert_fst_next_id (hs : HashSync K V) (v : V) :
    (hs.insert v).1.next_id = hs.next_id.next := rfl

theorem insert_snd (hs : HashSync K V) (v : V) : (hs.insert v).2 = hs.next_id := rfl

theorem replace_next_id (hs : HashSync K V) (id : RowId) (v : V) :
    (hs.replace id v).next_id = RowId.maxId id.next hs.next_id := by
  show RowId.maxId id.next (hs.delete id).1.next_id = RowId.maxId id.next hs.next_id
  rw [delete_next_id]

theorem applyOp_next_id_mono (hs : HashSync K V) (op : StoreOp K V) :
    hs.next_id.val ≤ (hs.applyOp op).next_id.val := by
  cases op with
  | ins v => exact Nat.le_succ _
  | del id =>
    show hs.next_id.val ≤ (hs.delete id).1.next_id.val
    rw [delete_next_id]
  | rep id v =>
    show hs.next_id.val ≤ (hs.replace id v).next_id.val
    rw [replace_next_id]
    exact Nat.le_max_right _ _

theorem runCollect_next_id_mono (ops : List (StoreOp K V)) (hs : HashSync K V) :
    hs.next_id.val ≤ (runCollect hs ops).1.next_id.val := by
  induction ops generalizing hs with
  | nil => exact Nat.le_refl _
  | cons op rest ih =>
    cases op with
    | ins v =>
      exact Nat.le_trans (applyOp_next_id_mono hs (StoreOp.ins v)) (ih (hs.insert v).1)
    | del id =>
      exact Nat.le_trans (applyOp_next_id_mono hs (StoreOp.del id)) (ih (hs.delete id).1)
    | rep id v =>
      exact Nat.le_trans (applyOp_next_id_mono hs (StoreOp.rep id v)) (ih (hs.replace id v))

theorem runCollect_bound (ops : List (StoreOp K V)) (hs : HashSync K V) :
    ∀ id ∈ (runCollect hs ops).2, id.val < (runCollect hs ops).1.next_id.val := by
  induction ops generalizing hs with
  | nil => intro id h; cases h
  | cons op rest ih =>
    cases op with
    | ins v =>
      intro id hid
      rcases List.mem_cons.mp hid with h | h
      · subst h
        have h1 : hs.next_id.val < (hs.insert v).1.next_id.val := Nat.lt_succ_self _
        exact Nat.lt_of_lt_of_le h1 (runCollect_next_id_mono rest (hs.insert v).1)
      · exact ih (hs.insert v).1 id h
    | del id0 =>
      intro id hid
      exact ih (hs.delete id0).1 id hid
    | rep id0 v =>
      intro id hid
      rcases List.mem_cons.mp hid with h | h
      · subst h
        have h1 : id.val < (hs.replace id v).next_id.val := by
          rw [replace_next_id]
          exact Nat.lt_of_lt_of_le (Nat.lt_succ_self _) (Nat.le_max_left _ _)
        exact Nat.lt_of_lt_of_le h1 (runCollect_next_id_mono rest (hs.replace id v))
      · exact ih (hs.replace id0 v) id h

end Monotone

/-- C6: every identifier handed out by an insert is strictly greater than
every identifier previously returned by an insert or passed to a replace in
the run, and replacing at id 5 on an empty store advances the generator so
the next insert returns id 6. -/
theorem C6_id_monotonicity {K V : Type} [DecidableEq K] (ops : List (StoreOp K V)) (v w : V) :
    (∀ id ∈ (runCollect (HashSync.new : HashSync K V) ops).2,
        id.val < (((runCollect (HashSync.new : HashSync K V) ops).1).insert v).2.val)
    ∧ (((HashSync.new : HashSync K V).replace (RowId.new 5) v).insert w).2 = RowId.new 6 := by
  constructor
  · intro id hid
    exact runCollect_bound ops (HashSync.new : HashSync K V) id hid
  · rfl

theorem C6_witness :
    (RowId.new 0 ∈
        (runCollect (HashSync.new : HashSync Nat Nat) [StoreOp.ins 4, StoreOp.rep (RowId.new 2) 9]).2)
    ∧ (RowId.new 0).val <
        (((runCollect (HashSync.new : HashSync Nat Nat)
            [StoreOp.ins 4, StoreOp.rep (RowId.new 2) 9]).1).insert 5).2.val
    ∧ (((HashSync.new : HashSync Nat Nat).replace (RowId.new 5) 1).insert 2).2 = RowId.new 6 := by
  have h := C6_id_monotonicity
    ([StoreOp.ins 4, StoreOp.rep (RowId.new 2) 9] : List (StoreOp Nat Nat)) 5 1
  have hm : RowId.new 0 ∈
      (runCollect (HashSync.new : HashSync Nat Nat) [StoreOp.ins 4, StoreOp.rep (RowId.new 2) 9]).2 :=
    by decide
  have h2 := C6_id_monotonicity ([] : List (StoreOp Nat Nat)) 1 2
  exact ⟨hm, h.1 (RowId.new 0) hm, h2.2⟩

section Backfill

variable {K V : Type} [DecidableEq K]

theorem foldl_insert_function (rows : RowTable V) (idx : Index K V) :
    (rows.foldl (fun acc r => acc.insert (Indexed.new r.1 r.2)) idx).index_function =
      idx.index_function := by
  induction rows generalizing idx with
  | nil => rfl
  | cons r t ih =>
    rw [List.foldl_cons, ih]
    rfl

theorem foldl_insert_mono (rows : RowTable V) (idx : Index K V) {k : K} {a : RowId}
    (h : a ∈ idx.get k) :
    a ∈ (rows.foldl (fun acc r => acc.insert (Indexed.new r.1 r.2)) idx).get k := by
  induction rows generalizing idx with
  | nil => exact h
  | cons r t ih =>
    rw [List.foldl_cons]
    exact ih _ (mem_get_insert.mpr (Or.inl h))

theorem foldl_insert_mem (rows : RowTable V) (idx : Index K V) {id : RowId} {v : V}
    {k : K} (hr : (id, v) ∈ rows) (hk : k ∈ idx.index_function (Indexed.new id v)) :
    id ∈ (rows.foldl (fun acc r => acc.insert (Indexed.new r.1 r.2)) idx).get k := by
  induction rows generalizing idx with
  | nil => cases hr
  | cons r t ih =>
    rw [List.foldl_cons]
    rcases List.mem_cons.mp hr with h | h
    · rw [← h]
      exact foldl_insert_mono t _ (mem_get_insert.mpr (Or.inr ⟨rfl, hk⟩))
    · exact ih _ h (by rw [Index.insert_function]; exact hk)

theorem backfill_mem (f : Indexed V → List K) (rows : RowTable V) {id : RowId}
    {v : V} {k : K} (hr : (id, v) ∈ rows) (hk : k ∈ f (Indexed.new id v)) :
    id ∈ (backfill f rows).get k :=
  foldl_insert_mem rows (Index.new f) hr hk

end Backfill

/-- C7: each of the four index-registration operations returns a handle whose
index state already contains, for every row currently in the primary table
and every key its key-extraction function produces on that row, the row's
identifier in that key's set. -/
theorem C7_late_registration_backfill {K V : Type} [DecidableEq K]
    (ops : List (StoreOp K V)) (f : Indexed V → List K) (g : Indexed V → K)
    (fm : V → List K) (fs : V → K) :
    (∀ id v, (id, v) ∈ (runOps (HashSync.new : HashSync K V) ops).rows →
        ∀ k ∈ f (Indexed.new id v),
          id ∈ ((runOps (HashSync.new : HashSync K V) ops).index_id_many f).2.get k)
    ∧ (∀ id v, (id, v) ∈ (runOps (HashSync.new : HashSync K V) ops).rows →
        id ∈ ((runOps (HashSync.new : HashSync K V) ops).index_id g).2.get
          (g (Indexed.new id v)))
    ∧ (∀ id v, (id, v) ∈ (runOps (HashSync.new : HashSync K V) ops).rows →
        ∀ k ∈ fm v,
          id ∈ ((runOps (HashSync.new : HashSync K V) ops).index_many fm).2.get k)
    ∧ (∀ id v, (id, v) ∈ (runOps (HashSync.new : HashSync K V) ops).rows →
        id ∈ ((runOps (HashSync.new : HashSync K V) ops).index fs).2.get (fs v)) := by
  refine ⟨?_, ?_, ?_, ?_⟩
  · intro id v hr k hk
    exact backfill_mem f _ hr hk
  · intro id v hr
    exact backfill_mem (fun indexed => [g indexed]) _ hr (List.mem_singleton.mpr rfl)
  · intro id v hr k hk
    exact backfill_mem (fun indexed => fm indexed.value) _ hr hk
  · intro id v hr
    exact backfill_mem (fun indexed => [fs indexed.value]) _ hr (List.mem_singleton.mpr rfl)

theorem C7_witness :
    ((RowId.new 0, 3) ∈ (runOps (HashSync.new : HashSync Nat Nat) [StoreOp.ins 3]).rows
      ∧ 3 ∈ valueKeyFn (Indexed.new (RowId.new 0) 3))
    ∧ RowId.new 0 ∈
        ((runOps (HashSync.new : HashSync Nat Nat) [StoreOp.ins 3]).index_id_many
          valueKeyFn).2.get 3 := by
  have h := C7_late_registration_backfill [StoreOp.ins 3] valueKeyFn
    (fun ix => ix.value) (fun v => [v]) (fun v => v)
  exact ⟨⟨by decide, by decide⟩, h.1 (RowId.new 0) 3 (by decide) 3 (by decide)⟩

section C1Development

variable {K V : Type} [DecidableEq K]

theorem mem_of_lookupRow {rows : RowTable V} {id : RowId} {v : V}
    (h : lookupRow rows id = some v) : (id, v) ∈ rows := by
  induction rows with
  | nil => cases h
  | cons r rest ih =>
    obtain ⟨i, w⟩ := r
    simp only [lookupRow] at h
    split at h
    · cases h
      subst_vars
      exact List.mem_cons_self _ _
    · exact List.mem_cons_of_mem _ (ih h)

theorem lookupRow_of_mem_nodup {rows : RowTable V} (hkeys : (rows.map Prod.fst).Nodup)
    {id : RowId} {v : V} (h : (id, v) ∈ rows) : lookupRow rows id = some v := by
  induction rows with
  | nil => cases h
  | cons r rest ih =>
    obtain ⟨i, w⟩ := r
    rcases List.mem_cons.mp h with h1 | h1
    · injection h1 with e1 e2
      subst e1
      subst e2
      simp [lookupRow]
    · have hki : id ≠ i := by
        intro he
        subst he
        exact (List.nodup_cons.mp hkeys).1 (List.mem_map.mpr ⟨(id, v), h1, rfl⟩)
      rw [show lookupRow ((i, w) :: rest) id = lookupRow rest id by
        simp [lookupRow, hki]]
      exact ih (List.nodup_cons.mp hkeys).2 h1

theorem tableInsert_append_of_not_mem {rows : RowTable V} {id : RowId}
    (h : id ∉ rows.map Prod.fst) (v : V) :
    tableInsert id v rows = rows ++ [(id, v)] := by
  induction rows with
  | nil => rfl
  | cons r rest ih =>
    obtain ⟨i, w⟩ := r
    have hne : i ≠ id := by
      intro he
      exact h (by simp [he])
    simp only [tableInsert, if_neg hne, List.cons_append, List.cons.injEq, true_and]
    exact ih (fun hc => h (by simp [hc]))

theorem storeWf_new {K V : Type} : StoreWf (HashSync.new : HashSync K V) :=
  ⟨List.nodup_nil, by simp [HashSync.new]⟩

theorem storeWf_next_id_not_mem {K V : Type} {hs : HashSync K V} (h : StoreWf hs) :
    hs.next_id ∉ hs.rows.map Prod.fst := by
  intro hmem
  obtain ⟨r, hr, hfst⟩ := List.mem_map.mp hmem
  have hlt := h.2 r hr
  rw [hfst] at hlt
  exact Nat.lt_irrefl _ hlt

theorem insert_rows_append {hs : HashSync K V} (h : StoreWf hs) (v : V) :
    (hs.insert v).1.rows = hs.rows ++ [(hs.next_id, v)] := by
  show tableInsert hs.next_id v hs.rows = _
  exact tableInsert_append_of_not_mem (storeWf_next_id_not_mem h) v

theorem storeWf_insert {hs : HashSync K V} (h : StoreWf hs) (v : V) :
    StoreWf (hs.insert v).1 := by
  have hrows := insert_rows_append h v
  constructor
  · show ((hs.insert v).1.rows.map Prod.fst).Nodup
    rw [hrows, List.map_append]
    refine List.Nodup.append h.1 (List.nodup_singleton _) ?_
    intro x hx hx2
    simp only [List.map_cons, List.map_nil, List.mem_singleton] at hx2
    subst hx2
    exact storeWf_next_id_not_mem h hx
  · intro r hr
    rw [hrows] at hr
    show r.1.val < hs.next_id.next.val
    rcases List.mem_append.mp hr with h1 | h1
    · exact Nat.lt_trans (h.2 r h1) (Nat.lt_succ_self _)
    · rw [List.mem_singleton] at h1
      subst h1
      exact Nat.lt_succ_self _

theorem indexInv_nil (f : Indexed V → List K) : IndexInv f ([] : RowTable V) ([] : KeySets K) := by
  constructor
  · intro k
    simp [getSet, lookupKey]
  · intro k id
    simp [getSet, lookupKey]

theorem indexInv_step {f : Indexed V → List K} {rows : RowTable V} {m : KeySets K}
    (h : IndexInv f rows m) (id : RowId) (v : V) :
    IndexInv f (rows ++ [(id, v)]) (insKeys id (f (Indexed.new id v)) m) := by
  obtain ⟨hnd, hmem⟩ := h
  constructor
  · intro k
    rw [getSet_insKeys]
    split
    · exact setInsert_nodup (hnd k)
    · exact hnd k
  · intro k id'
    rw [getSet_insKeys]
    by_cases hk : k ∈ f (Indexed.new id v)
    · rw [if_pos hk, mem_setInsert]
      constructor
      · rintro (hin | rfl)
        · obtain ⟨w, hw, hkw⟩ := (hmem k id').mp hin
          exact ⟨w, List.mem_append.mpr (Or.inl hw), hkw⟩
        · exact ⟨v, List.mem_append.mpr (Or.inr (List.mem_singleton_self _)), hk⟩
      · rintro ⟨w, hw, hkw⟩
        rcases List.mem_append.mp hw with h1 | h1
        · exact Or.inl ((hmem k id').mpr ⟨w, h1, hkw⟩)
        · rw [List.mem_singleton] at h1
          injection h1 with e1 e2
          exact Or.inr e1
    · rw [if_neg hk]
      constructor
      · intro hin
        obtain ⟨w, hw, hkw⟩ := (hmem k id').mp hin
        exact ⟨w, List.mem_append.mpr (Or.inl hw), hkw⟩
      · rintro ⟨w, hw, hkw⟩
        rcases List.mem_append.mp hw with h1 | h1
        · exact (hmem k id').mpr ⟨w, h1, hkw⟩
        · rw [List.mem_singleton] at h1
          injection h1 with e1 e2
          subst e1
          subst e2
          exact absurd hkw hk

theorem index_eq_mk {K V : Type} {idx : Index K V} {f : Indexed V → List K}
    (h : idx.index_function = f) : idx = Index.mk f idx.index := by
  cases idx with
  | mk g m =>
    rw [show g = f from h]

theorem foldl_insert_inv (f : Indexed V → List K) (rows : RowTable V) :
    ∀ (acc : RowTable V) (idx : Index K V), idx.index_function = f →
      IndexInv f acc idx.index →
      IndexInv f (acc ++ rows)
        ((rows.foldl (fun a r => a.insert (Indexed.new r.1 r.2)) idx).index) := by
  induction rows with
  | nil =>
    intro acc idx hf hinv
    simpa using hinv
  | cons r t ih =>
    intro acc idx hf hinv
    rw [List.foldl_cons]
    have hstep : IndexInv f (acc ++ [(r.1, r.2)]) ((idx.insert (Indexed.new r.1 r.2)).index) := by
      show IndexInv f _
        (insKeys (Indexed.new r.1 r.2).id (idx.index_function (Indexed.new r.1 r.2)) idx.index)
      rw [hf]
      exact indexInv_step ⟨(fun k => hinv.1 k), hinv.2⟩ r.1 r.2
    have hrest := ih (acc ++ [(r.1, r.2)]) (idx.insert (Indexed.new r.1 r.2))
      (by rw [Index.insert_function]; exact hf) hstep
    rw [List.append_assoc] at hrest
    exact hrest

theorem backfill_inv (f : Indexed V → List K) (rows : RowTable V) :
    IndexInv f rows (backfill f rows).index := by
  have h := foldl_insert_inv f rows [] (Index.new f) rfl (indexInv_nil f)
  simpa using h

theorem backfill_function (f : Indexed V → List K) (rows : RowTable V) :
    (backfill f rows).index_function = f :=
  foldl_insert_function rows (Index.new f)

theorem insertMany_indexes_nil {hs : HashSync K V} (h : hs.indexes = []) (vs : List V) :
    (insertMany hs vs).indexes = [] := by
  induction vs generalizing hs with
  | nil => exact h
  | cons v t ih =>
    refine ih ?_
    show hs.indexes.map _ = []
    rw [h]
    rfl

theorem storeWf_insertMany {hs : HashSync K V} (h : StoreWf hs) (vs : List V) :
    StoreWf (insertMany hs vs) := by
  induction vs generalizing hs with
  | nil => exact h
  | cons v t ih => exact ih (storeWf_insert h v)

theorem c1inv_insert {f : Indexed V → List K} {hs : HashSync K V}
    (h : C1Inv f hs) (v : V) : C1Inv f (hs.insert v).1 := by
  obtain ⟨hwf, m, him, hinv⟩ := h
  refine ⟨storeWf_insert hwf v,
    insKeys hs.next_id (f (Indexed.new hs.next_id v)) m, ?_, ?_⟩
  · show (hs.indexes.map fun idx => idx.insert (Indexed.new hs.next_id v)) = _
    rw [him]
    rfl
  · show IndexInv f (hs.insert v).1.rows _
    rw [insert_rows_append hwf v]
    exact indexInv_step hinv hs.next_id v

theorem c1inv_insertMany {f : Indexed V → List K} {hs : HashSync K V}
    (h : C1Inv f hs) (vs : List V) : C1Inv f (insertMany hs vs) := by
  induction vs generalizing hs with
  | nil => exact h
  | cons v t ih => exact ih (c1inv_insert h v)

theorem c1inv_register {hs : HashSync K V} (hwf : StoreWf hs) (hnil : hs.indexes = [])
    (f : Indexed V → List K) : C1Inv f (hs.index_id_many f).1 := by
  refine ⟨hwf, (backfill f hs.rows).index, ?_, ?_⟩
  · show hs.indexes ++ [backfill f hs.rows] = [Index.mk f (backfill f hs.rows).index]
    rw [hnil, List.nil_append]
    rw [← index_eq_mk (backfill_function f hs.rows)]
  · exact backfill_inv f hs.rows

theorem inv_get_values_perm {f : Indexed V → List K} {rows : RowTable V} {m : KeySets K}
    (hkeys : (rows.map Prod.fst).Nodup) (hinv : IndexInv f rows m) (k : K) :
    (IndexRead.get_values rows (Index.mk f m) k).Perm
      ((rows.filter (fun r => decide (k ∈ f (Indexed.new r.1 r.2)))).map Prod.snd) := by
  obtain ⟨hnd, hmem⟩ := hinv
  have hperm : (IndexRead.get rows (Index.mk f m) k).Perm
      ((rows.filter (fun r => decide (k ∈ f (Indexed.new r.1 r.2)))).map
        (fun r => Indexed.new r.1 r.2)) := by
    have d1 : (IndexRead.get rows (Index.mk f m) k).Nodup := by
      apply List.Nodup.of_map (fun ix : Indexed V => ix.id)
      show ((((Index.mk f m).get k).filterMap
        (fun id => (lookupRow rows id).map (fun v => Indexed.new id v))).map
          (fun ix => ix.id)).Nodup
      rw [filterMap_resolve_ids]
      exact (hnd k).filter _
    have d2 : (((rows.filter (fun r => decide (k ∈ f (Indexed.new r.1 r.2))))).map
        (fun r => Indexed.new r.1 r.2)).Nodup := by
      have hrnd : rows.Nodup := List.Nodup.of_map Prod.fst hkeys
      have hinj : Function.Injective (fun r : RowId × V => Indexed.new r.1 r.2) := by
        intro a b hab
        have h1 : a.1 = b.1 := congrArg Indexed.id hab
        have h2 : a.2 = b.2 := congrArg Indexed.value hab
        exact Prod.ext h1 h2
      exact (hrnd.filter _).map hinj
    refine (List.perm_ext_iff_of_nodup d1 d2).mpr ?_
    intro ix
    rw [mem_indexRead_get]
    constructor
    · rintro ⟨hid, hlook⟩
      obtain ⟨w, hw, hkw⟩ := (hmem k ix.id).mp hid
      have hl2 : lookupRow rows ix.id = some w := lookupRow_of_mem_nodup hkeys hw
      have hwv : w = ix.value := by
        rw [hlook] at hl2
        exact (Option.some.inj hl2).symm
      subst hwv
      rw [List.mem_map]
      refine ⟨(ix.id, ix.value), ?_, rfl⟩
      rw [List.mem_filter]
      refine ⟨hw, ?_⟩
      simpa using hkw
    · intro hmem2
      rw [List.mem_map] at hmem2
      obtain ⟨r, hr, hrix⟩ := hmem2
      rw [List.mem_filter] at hr
      obtain ⟨hrrows, hrp⟩ := hr
      have hid : r.1 = ix.id := congrArg Indexed.id hrix
      have hvl : r.2 = ix.value := congrArg Indexed.value hrix
      have hrr : (ix.id, ix.value) = r := (Prod.ext hid hvl).symm
      constructor
      · apply (hmem k ix.id).mpr
        refine ⟨ix.value, ?_, ?_⟩
        · rw [hrr]
          exact hrrows
        · have hkr : k ∈ f (Indexed.new r.1 r.2) := by simpa using hrp
          rw [hid, hvl] at hkr
          exact hkr
      · apply lookupRow_of_mem_nodup hkeys
        rw [hrr]
        exact hrrows
  have h2 := hperm.map (fun ix : Indexed V => ix.value)
  refine h2.trans ?_
  rw [List.map_map]
  rw [List.map_congr_left (fun (a : RowId × V) _ => rfl :
    ∀ a ∈ rows.filter (fun r => decide (k ∈ f (Indexed.new r.1 r.2))),
      ((fun ix : Indexed V => ix.value) ∘ fun r : RowId × V => Indexed.new r.1 r.2) a =
        Prod.snd a)]
  exact List.Perm.refl _

end C1Development

/-- C1: after any run of inserts with an index registration at any point,
the registered index answers `get_values` with exactly the multiset of
current table values whose extracted keys contain the queried key. -/
theorem C1_index_completeness {K V : Type} [DecidableEq K] (f : Indexed V → List K)
    (pre post : List V) (k : K) :
    ∀ idx ∈ (insertMany ((insertMany (HashSync.new : HashSync K V) pre).index_id_many f).1
        post).indexes,
      (IndexRead.get_values
          (insertMany ((insertMany (HashSync.new : HashSync K V) pre).index_id_many f).1
            post).rows idx k).Perm
        (((insertMany ((insertMany (HashSync.new : HashSync K V) pre).index_id_many f).1
            post).rows.filter
              (fun r => decide (k ∈ f (Indexed.new r.1 r.2)))).map Prod.snd) := by
  have hwf0 : StoreWf (insertMany (HashSync.new : HashSync K V) pre) :=
    storeWf_insertMany storeWf_new pre
  have hnil0 : (insertMany (HashSync.new : HashSync K V) pre).indexes = [] :=
    insertMany_indexes_nil rfl pre
  have hreg := c1inv_register hwf0 hnil0 f
  have hrun := c1inv_insertMany hreg post
  obtain ⟨hwf, m, him, hinv⟩ := hrun
  intro idx hidx
  rw [him, List.mem_singleton] at hidx
  subst hidx
  exact inv_get_values_perm hwf.1 hinv k

theorem C1_witness :
    (c1idxW ∈ (insertMany
        ((insertMany (HashSync.new : HashSync Nat Nat) [4]).index_id_many valueKeyFn).1
        [4]).indexes)
    ∧ (IndexRead.get_values
        (insertMany ((insertMany (HashSync.new : HashSync Nat Nat) [4]).index_id_many
          valueKeyFn).1 [4]).rows c1idxW 4).Perm
      (((insertMany ((insertMany (HashSync.new : HashSync Nat Nat) [4]).index_id_many
          valueKeyFn).1 [4]).rows.filter
            (fun r => decide (4 ∈ valueKeyFn (Indexed.new r.1 r.2)))).map Prod.snd) := by
  have hmem : c1idxW ∈ (insertMany
      ((insertMany (HashSync.new : HashSync Nat Nat) [4]).index_id_many valueKeyFn).1
      [4]).indexes := by
    have he : (insertMany
        ((insertMany (HashSync.new : HashSync Nat Nat) [4]).index_id_many valueKeyFn).1
        [4]).indexes = [c1idxW] := rfl
    rw [he]
    exact List.mem_singleton_self _
  exact ⟨hmem, C1_index_completeness valueKeyFn [4] [4] 4 c1idxW hmem⟩

section RoundTrip

variable {K : Type} [DecidableEq K]

theorem mapDeleteKey_mapInsertKey_self (k : K) (id : RowId) {m : KeySets K}
    (hne : ∀ p ∈ m, p.2 ≠ []) (hid : ∀ p ∈ m, id ∉ p.2) :
    mapDeleteKey k id (mapInsertKey k id m) = m := by
  induction m with
  | nil =>
    show mapDeleteKey k id [(k, setInsert id [])] = []
    rw [show setInsert id ([] : List RowId) = [id] from rfl]
    simp [mapDeleteKey, List.erase_cons_head]
  | cons q rest ih =>
    obtain ⟨a, ss⟩ := q
    by_cases hka : k = a
    · subst hka
      have hss_ne : ss ≠ [] := hne (k, ss) (List.mem_cons_self _ _)
      have hss_id : id ∉ ss := hid (k, ss) (List.mem_cons_self _ _)
      rw [show mapInsertKey k id ((k, ss) :: rest) = (k, setInsert id ss) :: rest by
        simp [mapInsertKey]]
      rw [show mapDeleteKey k id ((k, setInsert id ss) :: rest) =
          if (setInsert id ss).erase id = [] then rest
          else (k, (setInsert id ss).erase id) :: rest by
        simp [mapDeleteKey]]
      rw [setInsert_of_not_mem hss_id, List.erase_append_right _ hss_id]
      rw [show ([id] : List RowId).erase id = [] by simp]
      rw [List.append_nil, if_neg hss_ne]
    · rw [show mapInsertKey k id ((a, ss) :: rest) = (a, ss) :: mapInsertKey k id rest by
        simp [mapInsertKey, hka]]
      rw [show mapDeleteKey k id ((a, ss) :: mapInsertKey k id rest) =
          (a, ss) :: mapDeleteKey k id (mapInsertKey k id rest) by
        simp [mapDeleteKey, hka]]
      rw [ih (fun p hp => hne p (List.mem_cons_of_mem _ hp))
          (fun p hp => hid p (List.mem_cons_of_mem _ hp))]

theorem mapDeleteKey_mapInsertKey_comm {k kk : K} (hkk : k ≠ kk) (id : RowId)
    (m : KeySets K) :
    mapDeleteKey k id (mapInsertKey kk id m) = mapInsertKey kk id (mapDeleteKey k id m) := by
  induction m with
  | nil =>
    show mapDeleteKey k id [(kk, setInsert id [])] = mapInsertKey kk id []
    rw [show mapDeleteKey k id [(kk, setInsert id [])] = [(kk, setInsert id [])] by
      simp [mapDeleteKey, hkk]]
    rfl
  | cons q rest ih =>
    obtain ⟨a, ss⟩ := q
    by_cases hha : kk = a
    · subst hha
      rw [show mapInsertKey kk id ((kk, ss) :: rest) = (kk, setInsert id ss) :: rest by
        simp [mapInsertKey]]
      rw [show mapDeleteKey k id ((kk, setInsert id ss) :: rest) =
          (kk, setInsert id ss) :: mapDeleteKey k id rest by simp [mapDeleteKey, hkk]]
      rw [show mapDeleteKey k id ((kk, ss) :: rest) = (kk, ss) :: mapDeleteKey k id rest by
        simp [mapDeleteKey, hkk]]
      rw [show mapInsertKey kk id ((kk, ss) :: mapDeleteKey k id rest) =
          (kk, setInsert id ss) :: mapDeleteKey k id rest by simp [mapInsertKey]]
    · by_cases hak : k = a
      · subst hak
        have hbk : ¬ kk = k := fun h => hkk h.symm
        rw [show mapInsertKey kk id ((k, ss) :: rest) = (k, ss) :: mapInsertKey kk id rest by
          simp [mapInsertKey, hbk]]
        rw [show mapDeleteKey k id ((k, ss) :: mapInsertKey kk id rest) =
            if ss.erase id = [] then mapInsertKey kk id rest
            else (k, ss.erase id) :: mapInsertKey kk id rest by simp [mapDeleteKey]]
        rw [show mapDeleteKey k id ((k, ss) :: rest) =
            if ss.erase id = [] then rest else (k, ss.erase id) :: rest by simp [mapDeleteKey]]
        by_cases he : ss.erase id = []
        · rw [if_pos he, if_pos he]
        · rw [if_neg he, if_neg he]
          rw [show mapInsertKey kk id ((k, ss.erase id) :: rest) =
              (k, ss.erase id) :: mapInsertKey kk id rest by simp [mapInsertKey, hbk]]
      · have hba : ¬ kk = a := hha
        rw [show mapInsertKey kk id ((a, ss) :: rest) = (a, ss) :: mapInsertKey kk id rest by
          simp [mapInsertKey, hba]]
        rw [show mapDeleteKey k id ((a, ss) :: mapInsertKey kk id rest) =
            (a, ss) :: mapDeleteKey k id (mapInsertKey kk id rest) by simp [mapDeleteKey, hak]]
        rw [show mapDeleteKey k id ((a, ss) :: rest) = (a, ss) :: mapDeleteKey k id rest by
          simp [mapDeleteKey, hak]]
        rw [show mapInsertKey kk id ((a, ss) :: mapDeleteKey k id rest) =
            (a, ss) :: mapInsertKey kk id (mapDeleteKey k id rest) by
          simp [mapInsertKey, hba]]
        rw [ih]

theorem mapInsertKey_of_mem {k : K} {id : RowId} {m : KeySets K}
    (h : id ∈ getSet m k) : mapInsertKey k id m = m := by
  induction m with
  | nil => simp [getSet, lookupKey] at h
  | cons q rest ih =>
    obtain ⟨a, ss⟩ := q
    by_cases hka : k = a
    · subst hka
      rw [getSet_cons_self] at h
      rw [show mapInsertKey k id ((k, ss) :: rest) = (k, setInsert id ss) :: rest by
        simp [mapInsertKey]]
      rw [setInsert_of_mem h]
    · rw [getSet_cons_ne hka] at h
      rw [show mapInsertKey k id ((a, ss) :: rest) = (a, ss) :: mapInsertKey k id rest by
        simp [mapInsertKey, hka]]
      rw [ih h]

theorem insKeys_filter_of_mem {k : K} {id : RowId} (t : List K) :
    ∀ {m : KeySets K}, id ∈ getSet m k →
      insKeys id t m = insKeys id (t.filter (fun x => decide (x ≠ k))) m := by
  induction t with
  | nil => intro m _; rfl
  | cons a t2 ih =>
    intro m h
    by_cases hak : a = k
    · subst hak
      rw [show (a :: t2).filter (fun x => decide (x ≠ a)) = t2.filter (fun x => decide (x ≠ a)) by
        simp]
      rw [show insKeys id (a :: t2) m = insKeys id t2 (mapInsertKey a id m) from rfl]
      rw [mapInsertKey_of_mem h]
      exact ih h
    · have hka : ¬ k = a := fun hc => hak hc.symm
      rw [show (a :: t2).filter (fun x => decide (x ≠ k)) =
          a :: t2.filter (fun x => decide (x ≠ k)) by simp [hak]]
      rw [show insKeys id (a :: t2) m = insKeys id t2 (mapInsertKey a id m) from rfl]
      rw [show insKeys id (a :: t2.filter (fun x => decide (x ≠ k))) m =
          insKeys id (t2.filter (fun x => decide (x ≠ k))) (mapInsertKey a id m) from rfl]
      apply ih
      rw [getSet_mapInsertKey, if_neg hka]
      exact h

theorem mapDeleteKey_eq_self {k : K} {id : RowId} {m : KeySets K}
    (h : ∀ p ∈ m, p.1 = k → id ∉ p.2 ∧ p.2 ≠ []) : mapDeleteKey k id m = m := by
  induction m with
  | nil => rfl
  | cons q rest ih =>
    obtain ⟨a, ss⟩ := q
    by_cases hka : k = a
    · subst hka
      obtain ⟨hidm, hnem⟩ := h (k, ss) (List.mem_cons_self _ _) rfl
      rw [show mapDeleteKey k id ((k, ss) :: rest) =
          if ss.erase id = [] then rest else (k, ss.erase id) :: rest by simp [mapDeleteKey]]
      rw [List.erase_of_not_mem hidm, if_neg hnem]
    · rw [show mapDeleteKey k id ((a, ss) :: rest) = (a, ss) :: mapDeleteKey k id rest by
        simp [mapDeleteKey, hka]]
      rw [ih (fun p hp hpk => h p (List.mem_cons_of_mem _ hp) hpk)]

theorem mem_mapDeleteKey_of_ne {kk : K} {id : RowId} {m : KeySets K}
    {p : K × List RowId} (hp : p ∈ mapDeleteKey kk id m) (hne : p.1 ≠ kk) : p ∈ m := by
  induction m with
  | nil => cases hp
  | cons q rest ih =>
    obtain ⟨a, ss⟩ := q
    by_cases hka : kk = a
    · subst hka
      rw [show mapDeleteKey kk id ((kk, ss) :: rest) =
          if ss.erase id = [] then rest else (kk, ss.erase id) :: rest by
        simp [mapDeleteKey]] at hp
      by_cases he : ss.erase id = []
      · rw [if_pos he] at hp
        exact List.mem_cons_of_mem _ hp
      · rw [if_neg he] at hp
        rcases List.mem_cons.mp hp with h1 | h1
        · exfalso
          apply hne
          rw [h1]
        · exact List.mem_cons_of_mem _ h1
    · rw [show mapDeleteKey kk id ((a, ss) :: rest) = (a, ss) :: mapDeleteKey kk id rest by
        simp [mapDeleteKey, hka]] at hp
      rcases List.mem_cons.mp hp with h1 | h1
      · rw [h1]
        exact List.mem_cons_self _ _
      · exact List.mem_cons_of_mem _ (ih h1)

theorem mem_mapInsertKey_of_ne {a : K} {id : RowId} {m : KeySets K}
    {p : K × List RowId} (hp : p ∈ mapInsertKey a id m) (hne : p.1 ≠ a) : p ∈ m := by
  induction m with
  | nil =>
    rw [show mapInsertKey a id ([] : KeySets K) = [(a, setInsert id [])] from rfl] at hp
    rw [List.mem_singleton] at hp
    exfalso
    apply hne
    rw [hp]
  | cons q rest ih =>
    obtain ⟨b, ss⟩ := q
    by_cases hab : a = b
    · subst hab
      rw [show mapInsertKey a id ((a, ss) :: rest) = (a, setInsert id ss) :: rest by
        simp [mapInsertKey]] at hp
      rcases List.mem_cons.mp hp with h1 | h1
      · exfalso
        apply hne
        rw [h1]
      · exact List.mem_cons_of_mem _ h1
    · rw [show mapInsertKey a id ((b, ss) :: rest) = (b, ss) :: mapInsertKey a id rest by
        simp [mapInsertKey, hab]] at hp
      rcases List.mem_cons.mp hp with h1 | h1
      · rw [h1]
        exact List.mem_cons_self _ _
      · exact List.mem_cons_of_mem _ (ih h1)

theorem delKeys_filter_of_cond {k : K} {id : RowId} (t : List K) :
    ∀ {m : KeySets K}, (∀ p ∈ m, p.1 = k → id ∉ p.2 ∧ p.2 ≠ []) →
      delKeys id t m = delKeys id (t.filter (fun x => decide (x ≠ k))) m := by
  induction t with
  | nil => intro m _; rfl
  | cons a t2 ih =>
    intro m h
    by_cases hak : a = k
    · subst hak
      rw [show (a :: t2).filter (fun x => decide (x ≠ a)) = t2.filter (fun x => decide (x ≠ a)) by
        simp]
      rw [show delKeys id (a :: t2) m = delKeys id t2 (mapDeleteKey a id m) from rfl]
      rw [mapDeleteKey_eq_self h]
      exact ih h
    · rw [show (a :: t2).filter (fun x => decide (x ≠ k)) =
          a :: t2.filter (fun x => decide (x ≠ k)) by simp [hak]]
      rw [show delKeys id (a :: t2) m = delKeys id t2 (mapDeleteKey a id m) from rfl]
      rw [show delKeys id (a :: t2.filter (fun x => decide (x ≠ k))) m =
          delKeys id (t2.filter (fun x => decide (x ≠ k))) (mapDeleteKey a id m) from rfl]
      apply ih
      intro p hp hpk
      refine h p (mem_mapDeleteKey_of_ne hp ?_) hpk
      rw [hpk]
      exact fun hc => hak hc.symm

theorem mapDeleteKey_insKeys_comm {k : K} {id : RowId} (t : List K) (hk : k ∉ t) :
    ∀ m : KeySets K,
      mapDeleteKey k id (insKeys id t m) = insKeys id t (mapDeleteKey k id m) := by
  induction t with
  | nil => intro m; rfl
  | cons a t2 ih =>
    intro m
    rw [List.mem_cons] at hk
    push_neg at hk
    rw [show insKeys id (a :: t2) m = insKeys id t2 (mapInsertKey a id m) from rfl]
    rw [ih hk.2 (mapInsertKey a id m)]
    rw [mapDeleteKey_mapInsertKey_comm hk.1 id m]
    rfl

theorem mem_insKeys_of_ne_key {k : K} {id : RowId} (t : List K) (hk : k ∉ t) :
    ∀ {m : KeySets K} {p : K × List RowId}, p ∈ insKeys id t m → p.1 = k → p ∈ m := by
  induction t with
  | nil => intro m p hp _; exact hp
  | cons a t2 ih =>
    intro m p hp hpk
    rw [List.mem_cons] at hk
    push_neg at hk
    have hp2 : p ∈ mapInsertKey a id m := ih hk.2 hp hpk
    refine mem_mapInsertKey_of_ne hp2 ?_
    rw [hpk]
    exact fun hc => hk.1 hc

theorem delKeys_insKeys_roundtrip (id : RowId) :
    ∀ (n : Nat) (ks : List K), ks.length ≤ n → ∀ m : KeySets K,
      (∀ p ∈ m, p.2 ≠ []) → (∀ p ∈ m, id ∉ p.2) →
      delKeys id ks (insKeys id ks m) = m := by
  intro n
  induction n with
  | zero =>
    intro ks hlen m _ _
    have hks : ks = [] := List.length_eq_zero.mp (Nat.le_zero.mp hlen)
    subst hks
    rfl
  | succ n ih =>
    intro ks hlen m h1 h2
    cases ks with
    | nil => rfl
    | cons k t =>
      have hlent : t.length ≤ n := Nat.le_of_succ_le_succ hlen
      have hmemk : id ∈ getSet (mapInsertKey k id m) k := by
        rw [getSet_mapInsertKey, if_pos rfl]
        exact mem_setInsert_self id _
      have hknot : k ∉ t.filter (fun x => decide (x ≠ k)) := by
        simp [List.mem_filter]
      rw [show insKeys id (k :: t) m = insKeys id t (mapInsertKey k id m) from rfl]
      rw [insKeys_filter_of_mem t hmemk]
      rw [show delKeys id (k :: t)
          (insKeys id (t.filter (fun x => decide (x ≠ k))) (mapInsertKey k id m)) =
        delKeys id t (mapDeleteKey k id
          (insKeys id (t.filter (fun x => decide (x ≠ k))) (mapInsertKey k id m))) from rfl]
      rw [mapDeleteKey_insKeys_comm _ hknot, mapDeleteKey_mapInsertKey_self k id h1 h2]
      have hcond : ∀ p ∈ insKeys id (t.filter (fun x => decide (x ≠ k))) m,
          p.1 = k → id ∉ p.2 ∧ p.2 ≠ [] := by
        intro p hp hpk
        have hpm : p ∈ m := mem_insKeys_of_ne_key _ hknot hp hpk
        exact ⟨h2 p hpm, h1 p hpm⟩
      rw [delKeys_filter_of_cond t hcond]
      exact ih (t.filter (fun x => decide (x ≠ k)))
        (Nat.le_trans (List.length_filter_le _ _) hlent) m h1 h2

end RoundTrip

/-- C10 (amended): on an index state in which every key-set is non-empty and
none contains the entry's identifier, insert followed by delete of the same
entry restores the index exactly. -/
theorem C10_insert_delete_roundtrip {K V : Type} [DecidableEq K] (s : Index K V)
    (e : Indexed V) (hne : ∀ p ∈ s.index, p.2 ≠ [])
    (hid : ∀ p ∈ s.index, e.id ∉ p.2) :
    (s.insert e).delete e = s := by
  cases s with
  | mk f m =>
    show Index.mk f (delKeys e.id (f e) (insKeys e.id (f e) m)) = Index.mk f m
    rw [delKeys_insKeys_roundtrip e.id (f e).length (f e) (Nat.le_refl _) m hne hid]

theorem C10_counterexample :
    (∀ p ∈ c10s.index, c10e.id ∉ p.2)
    ∧ ((c10s.insert c10e).delete c10e).index ≠ c10s.index := by
  constructor
  · decide
  · decide

theorem C10_witness :
    (∀ p ∈ c10w.index, p.2 ≠ []) ∧ (∀ p ∈ c10w.index, c10we.id ∉ p.2)
    ∧ (c10w.insert c10we).delete c10we = c10w := by
  refine ⟨by decide, by decide, ?_⟩
  exact C10_insert_delete_roundtrip c10w c10we (by decide) (by decide)
